import Mathlib

/-!
Verification of the branch-addressable conversation store and streaming
session registry of the chat_ui repository.

The Python sources are shallowly embedded:
* Python strings are modelled as `List Char`; `str(n)` / `int(s)` for decimal
  naturals are modelled through `Nat.digits` / `Nat.ofDigits`.
* The per-conversation file system of the file-per-branch store is modelled
  as an association list from canonical branch arrays (the result of parsing
  the branch filename) to message lists.
* The SQLite store is modelled as explicit lists of conversation and message
  rows; `db.total_changes` is modelled by counting the rows changed by each
  statement executed on the per-call connection.
* The in-memory streaming registry is modelled as association lists mirroring
  the Python dicts; an `asyncio.Event` is an `Option Bool` (`none` = no event,
  `some b` = event whose set-flag is `b`).
-/

namespace ChatUI

/-! ## Branch naming utilities (file_conversation_store.py lines 37-77) -/

/-- The `while len(branch) > 1 and branch[-1] == 0: branch = branch[:-1]` loop
of `branch_array_to_filename`, performed on the reversed list (the Python loop
inspects the last element; here we inspect the head of the reverse). -/
def dropZerosButOne : List Nat → List Nat
  | [] => []
  | [x] => [x]
  | x :: y :: rest => if x = 0 then dropZerosButOne (y :: rest) else x :: y :: rest

/-- Trailing-zero stripping used by `branch_array_to_filename`. -/
def stripTrailing (branch : List Nat) : List Nat :=
  (dropZerosButOne branch.reverse).reverse

/-- Decimal digit value to character, the digit part of Python's `str`. -/
def digitChar (d : Nat) : Char := Char.ofNat (48 + d)

/-- Character to decimal digit value, the digit part of Python's `int`. -/
def charVal (c : Char) : Nat := c.toNat - 48

/-- Little-endian base-10 digits, fuel-based so the kernel can evaluate it
(`Nat.digits` uses well-founded recursion). -/
def natDigitsAux : Nat → Nat → List Nat
  | _, 0 => []
  | 0, _ + 1 => []
  | fuel + 1, n + 1 => (n + 1) % 10 :: natDigitsAux fuel ((n + 1) / 10)

/-- Little-endian base-10 digits of `n`. -/
def natDigits (n : Nat) : List Nat := natDigitsAux n n

/-- Python `str(n)` for a natural number, as a character list. -/
def natRepr (n : Nat) : List Char :=
  if n = 0 then ['0'] else (natDigits n).reverse.map digitChar

/-- Python `int(s)` for a decimal digit string, as a character list. -/
def parseNat (s : List Char) : Nat :=
  Nat.ofDigits 10 ((s.map charVal).reverse)

/-- The `".json"` filename suffix. -/
def jsonExt : List Char := ['.', 'j', 's', 'o', 'n']

/-- Python `filename.replace(".json", "")`: scan left to right, skipping every
occurrence of `".json"`. -/
def stripJson : List Char → List Char
  | '.' :: 'j' :: 's' :: 'o' :: 'n' :: rest => stripJson rest
  | c :: rest => c :: stripJson rest
  | [] => []

/-- Model of `branch_array_to_filename` (file_conversation_store.py lines 37-55):
empty branch gives `"0.json"`; otherwise trailing zeros are stripped (keeping
at least one element) and the entries joined with `"_"`. -/
def branch_array_to_filename (branch : List Nat) : List Char :=
  if branch = [] then '0' :: jsonExt
  else List.intercalate ['_'] ((stripTrailing branch).map natRepr) ++ jsonExt

/-- Model of `filename_to_branch_array` (file_conversation_store.py lines 57-67):
remove the `".json"` suffix, parse the empty name to `[0]`, otherwise split on
`"_"` and parse each piece. -/
def filename_to_branch_array (filename : List Char) : List Nat :=
  let name := stripJson filename
  if name = [] then [0]
  else (name.splitOn '_').map parseNat

/-- Spec-side statement of the round-trip target: `p` with its trailing zeros
removed, keeping at least one element; the empty path maps to `[0]`. -/
def specStripTrailing (p : List Nat) : List Nat :=
  let r := (p.reverse.dropWhile (fun x => x == 0)).reverse
  if r = [] then [0] else r

/-! ## File-per-branch store (file_conversation_store.py)

One conversation's on-disk folder is modelled as an association list from the
canonical branch array of each branch file (what `filename_to_branch_array`
returns for the file's name; by the round-trip lemma this is
`specStripTrailing` of any array the file was written under, and the filename
is recoverable from it injectively) to the file's message array, together with
the metadata's `current_branch` pointer.  Message ids and timestamps are
generation bookkeeping not needed by the claims and are omitted. -/

inductive Role where
  | user
  | assistant
  | system
  deriving DecidableEq, Repr

/-- A stored message. -/
structure Msg where
  role : Role
  content : String
  thinking : Option String := none
  deriving DecidableEq, Repr

/-- Canonical form of a branch array: what parsing its filename returns. -/
def canon (b : List Nat) : List Nat := specStripTrailing b

/-- State of one conversation in the file store. -/
structure FileStore where
  files : List (List Nat × List Msg)
  current_branch : List Nat
  deriving DecidableEq, Repr

/-- Lookup in an association-list dictionary (Python `dict.get` / `dict[k]`). -/
def lookupKey {κ α : Type} [DecidableEq κ] (d : List (κ × α)) (k : κ) : Option α :=
  (d.find? (fun p => decide (p.1 = k))).map Prod.snd

/-- Assignment in an association-list dictionary (Python `dict[k] = v`):
overwrite the entry if present, otherwise append it. -/
def setKey {κ α : Type} [DecidableEq κ] (d : List (κ × α)) (k : κ) (v : α) :
    List (κ × α) :=
  if d.any (fun p => decide (p.1 = k))
  then d.map (fun p => if p.1 = k then (p.1, v) else p)
  else d ++ [(k, v)]

/-- Deletion from an association-list dictionary (Python `del dict[k]`). -/
def delKey {κ α : Type} [DecidableEq κ] (d : List (κ × α)) (k : κ) : List (κ × α) :=
  d.filter (fun p => !decide (p.1 = k))

/-- Reading the branch file of `b` (`_read_json` of `_get_branch_path`). -/
def findFile (s : FileStore) (b : List Nat) : Option (List Msg) :=
  lookupKey s.files (canon b)

/-- Writing the branch file of `b` (`_write_json` of `_get_branch_path`). -/
def writeFile (files : List (List Nat × List Msg)) (b : List Nat) (msgs : List Msg) :
    List (List Nat × List Msg) :=
  setKey files (canon b) msgs

/-- Model of `extend_branch_array` (lines 69-73): right-pad with zeros or truncate to
the requested length. -/
def extend_branch_array (branch : List Nat) (length : Nat) : List Nat :=
  if length ≤ branch.length then branch.take length
  else branch ++ List.replicate (length - branch.length) 0

/-- The sibling tag of a branch array at user-message position `u`:
`extend_branch_array b (u+1)[u]`. -/
def tagAt (b : List Nat) (u : Nat) : Nat :=
  (extend_branch_array b (u + 1)).getD u 0

/-- The set of sibling tags at position `u` among the given branch arrays that
share the prefix `pre` (the scan loops at lines 510-519, 595-605, 663-673). -/
def branchValues (arrays : List (List Nat)) (pre : List Nat) (u : Nat) : Finset Nat :=
  ((arrays.filter (fun f => decide (extend_branch_array f u = pre))).map
    (fun f => tagAt f u)).toFinset

/-- Insertion sort of a multiset (well defined, since sorting any two
permuted lists gives the same sorted list). -/
def sortMultiset (m : Multiset Nat) : List Nat :=
  Quot.liftOn m (List.insertionSort (· ≤ ·)) (fun l1 l2 h => by
    refine List.eq_of_perm_of_sorted ?_ (List.sorted_insertionSort _ l1)
      (List.sorted_insertionSort _ l2)
    exact ((List.perm_insertionSort _ l1).trans h).trans
      (List.perm_insertionSort _ l2).symm)

/-- Python `sorted(...)` of a set of tags: the ascending list of its distinct
elements. -/
def sortedVals (s : Finset Nat) : List Nat := sortMultiset s.val

/-- Model of `new_branch_num = 0; while new_branch_num in used_numbers: new_branch_num += 1`
(lines 521-524), with fuel `card + 1` (enough to clear every used tag). -/
def lowestUnusedAux (used : Finset Nat) : Nat → Nat → Nat
  | 0, n => n
  | fuel + 1, n => if n ∈ used then lowestUnusedAux used fuel (n + 1) else n

/-- The lowest tag not in `used`. -/
def lowestUnused (used : Finset Nat) : Nat :=
  lowestUnusedAux used (used.card + 1) 0

/-- The scan of create_branch lines 490-498: walk the messages with an index
counter, collecting the index of each user message in order. -/
def userPositionsFrom : Nat → List Msg → List Nat
  | _, [] => []
  | i, m :: rest =>
    if m.role = Role.user then i :: userPositionsFrom (i + 1) rest
    else userPositionsFrom (i + 1) rest

/-- Indices of the user messages of a message list, in order: the `u`-th entry
is the edit position create_branch finds for `user_msg_index = u`. -/
def userPositions (msgs : List Msg) : List Nat := userPositionsFrom 0 msgs

/-- Result payload of create_branch (lines 558-570). -/
structure CreateBranchResult where
  branch : List Nat
  content : String
  position : Nat
  version : Nat
  total_versions : Nat
  deriving DecidableEq, Repr

/-- Model of `create_branch` (lines 464-570).  `none` where the Python raises
`ValueError` (branch file missing, or no `user_msg_index`-th user message). -/
def create_branch (s : FileStore) (current_branch : List Nat) (user_msg_index : Nat)
    (new_content : String) : Option (FileStore × CreateBranchResult) :=
  match findFile s current_branch with
  | none => none
  | some messages =>
    match (userPositions messages).get? user_msg_index with
    | none => none
    | some edit_position =>
      let pre := extend_branch_array current_branch user_msg_index
      let used := branchValues (s.files.map Prod.fst) pre user_msg_index
      let new_branch_num := lowestUnused used
      let new_branch := pre ++ [new_branch_num]
      let new_messages := messages.take edit_position ++
        [{ role := Role.user, content := new_content, thinking := none }]
      some ({ files := writeFile s.files new_branch new_messages,
              current_branch := new_branch },
            { branch := new_branch, content := new_content,
              position := edit_position, version := new_branch_num + 1,
              total_versions := used.card + 1 })

/-- The best-match scan of switch_branch (lines 626-636): first candidate,
replaced by any later lexicographically smaller one. -/
def bestMatch : List (List Nat) → Option (List Nat)
  | [] => none
  | f :: fs => some (fs.foldl (fun best g => if g < best then g else best) f)

/-- The adjacent-index arithmetic of switch_branch (lines 614-618):
`new_idx = current_idx + direction`, wrapping to the last index below `0` and
to `0` at or past the end. -/
def switchNewIdx (len current_idx : Nat) (direction : Int) : Nat :=
  let new_idx_raw : Int := (current_idx : Int) + direction
  if new_idx_raw < 0 then len - 1
  else if new_idx_raw ≥ (len : Int) then 0
  else new_idx_raw.toNat

/-- The candidate scan of switch_branch (lines 626-630): branch files whose
zero-extension starts with the chosen new branch. -/
def switchCandidates (arrays : List (List Nat)) (user_msg_index : Nat)
    (new_branch : List Nat) : List (List Nat) :=
  arrays.filter
    (fun f => decide ((extend_branch_array f (user_msg_index + 1)).take (user_msg_index + 1)
      = new_branch))

/-- Model of `switch_branch` (lines 572-645).  Returns the new branch array (`none`
when no sibling exists) and the store (the current-branch pointer is updated
only when a matching branch file was found). -/
def switch_branch (s : FileStore) (current_branch : List Nat) (user_msg_index : Nat)
    (direction : Int) : Option (List Nat) × FileStore :=
  let pre := extend_branch_array current_branch user_msg_index
  let current_value := tagAt current_branch user_msg_index
  let values := branchValues (s.files.map Prod.fst) pre user_msg_index
  if values = ∅ then (none, s)
  else
    let sorted_values := sortedVals values
    let current_idx :=
      if current_value ∈ sorted_values then sorted_values.indexOf current_value else 0
    let new_value := sorted_values.getD (switchNewIdx sorted_values.length current_idx direction) 0
    let new_branch := pre ++ [new_value]
    match bestMatch (switchCandidates (s.files.map Prod.fst) user_msg_index new_branch) with
    | some best => (some best, { s with current_branch := best })
    | none => (some new_branch, s)

/-- Result of get_version_info (lines 675-691). -/
structure VersionInfo where
  position : Nat
  current_version : Nat
  total_versions : Nat
  versions : List Nat
  deriving DecidableEq, Repr

/-- Model of `get_version_info` (lines 647-691). -/
def get_version_info (s : FileStore) (branch : List Nat) (user_msg_index : Nat) :
    VersionInfo :=
  let pre := extend_branch_array branch user_msg_index
  let current_value := tagAt branch user_msg_index
  let values := branchValues (s.files.map Prod.fst) pre user_msg_index
  if values = ∅ then
    { position := user_msg_index, current_version := 1, total_versions := 1,
      versions := [0] }
  else
    let sorted_values := sortedVals values
    let current_idx :=
      if current_value ∈ sorted_values then sorted_values.indexOf current_value else 0
    { position := user_msg_index, current_version := current_idx + 1,
      total_versions := sorted_values.length, versions := sorted_values }

/-- Result payload of retry_assistant_message (lines 860-869). -/
structure RetryResult where
  content : String
  thinking : Option String
  position : Nat
  version : Nat
  deriving DecidableEq, Repr

/-- Model of `retry_assistant_message` (lines 812-869).  `none` where the Python raises
`ValueError` (branch file missing or position out of range). -/
def retry_assistant_message (s : FileStore) (branch : List Nat) (position : Nat)
    (new_content : String) (thinking : Option String) :
    Option (FileStore × RetryResult) :=
  match findFile s branch with
  | none => none
  | some messages =>
    if position ≥ messages.length then none
    else
      let new_message : Msg :=
        { role := Role.assistant, content := new_content, thinking := thinking }
      let msgs := messages.take position ++ [new_message]
      some ({ s with files := writeFile s.files branch msgs },
            { content := new_content, thinking := thinking,
              position := position, version := 1 })

/-- Model of `delete_messages_from` (file_conversation_store.py lines 882-930):
false when the branch file is missing or `position` is at or past the end,
otherwise truncate the branch file to `position` messages. -/
def delete_messages_from (s : FileStore) (position : Nat)
    (branch : Option (List Nat)) : Bool × FileStore :=
  let b := branch.getD s.current_branch
  match findFile s b with
  | none => (false, s)
  | some messages =>
    if position ≥ messages.length then (false, s)
    else (true, { s with files := writeFile s.files b (messages.take position) })

/-- A message as returned by get_conversation, with version metadata attached
(_add_version_info lines 241-279). -/
structure MsgView where
  role : Role
  content : String
  thinking : Option String
  position : Nat
  current_version : Nat
  total_versions : Nat
  user_msg_index : Option Nat
  deriving DecidableEq, Repr

/-- The loop of `_add_version_info` (lines 253-279): `i` is the position
counter, `uidx` the user-message counter. -/
def addVersionInfoAux (s : FileStore) (branch : List Nat) :
    Nat → Nat → List Msg → List MsgView
  | _, _, [] => []
  | i, uidx, m :: rest =>
    if m.role = Role.user then
      let vi := get_version_info s branch uidx
      { role := m.role, content := m.content, thinking := m.thinking, position := i,
        current_version := vi.current_version, total_versions := vi.total_versions,
        user_msg_index := some uidx } :: addVersionInfoAux s branch (i + 1) (uidx + 1) rest
    else
      { role := m.role, content := m.content, thinking := m.thinking, position := i,
        current_version := 1, total_versions := 1,
        user_msg_index := none } :: addVersionInfoAux s branch (i + 1) uidx rest

/-- Model of `get_conversation` (file_conversation_store.py lines 204-239): resolve the
requested (or current) branch, read its message array (empty if the file is
missing) and attach version metadata.  The store performs only reads here, so
the state is returned unchanged. -/
def get_conversation (s : FileStore) (branch : Option (List Nat)) :
    (List MsgView × List Nat) × FileStore :=
  let b := branch.getD s.current_branch
  let messages := (findFile s b).getD []
  ((addVersionInfoAux s b 0 0 messages, b), s)

/-- Repeated create_branch at the same user-message index, each call passing
the conversation's current branch (as the API layer does). -/
def iterCreateBranch (u : Nat) (c : String) : Nat → FileStore → Option FileStore
  | 0, s => some s
  | n + 1, s =>
    match create_branch s s.current_branch u c with
    | none => none
    | some (s', _) => iterCreateBranch u c n s'

/-- A conversation state on which create_branch at user-message index `u`
succeeds: the current branch file exists and holds a `u`-th user message. -/
def EditReady (s : FileStore) (u : Nat) : Prop :=
  ∃ msgs e, findFile s s.current_branch = some msgs ∧
    (userPositions msgs).get? u = some e

/-- A two-message demo conversation used to instantiate the theorems. -/
def demoStore : FileStore :=
  { files := [([0], [{ role := Role.user, content := "hi" },
                     { role := Role.assistant, content := "hello" }])],
    current_branch := [0] }

/-! ### Version-info rank (C5) and branch navigation (C7) -/

/-- Spec §4.3 VersionResolver: the 1-indexed rank of the selected tag within
the sorted distinct sibling tag set, defaulting to 1 for a stale tag. -/
def specRank (tags : Finset Nat) (selected : Nat) : Nat :=
  if selected ∈ tags then (sortedVals tags).indexOf selected + 1 else 1

/-- A demo conversation with three sibling branches (tags 0, 1, 2) at
position 0, currently on the highest tag. -/
def demoStore3 : FileStore :=
  { files := [([0], [{ role := Role.user, content := "a" }]),
              ([1], [{ role := Role.user, content := "b" }]),
              ([2], [{ role := Role.user, content := "c" }])],
    current_branch := [2] }

/-! ## Single-table SQLite store (conversation_store.py)

The database is modelled as explicit lists of conversation rows and message
rows.  `active_versions` (a JSON object keyed by the decimal string of the
position) is modelled as a finite map from positions to versions.  Message
content strings are kept opaque: the `json.loads` applied to a selected row's
content is a pure transformation performed identically on every read, so it
does not affect the claims below. -/

/-- A row of the messages table. -/
structure Row where
  id : Nat
  conversation_id : Nat
  role : Role
  content : String
  thinking : Option String
  position : Nat
  version : Nat
  parent_message_id : Option Nat
  deriving DecidableEq, Repr

/-- A row of the conversations table (only the fields the claims need). -/
structure ConvRow where
  id : Nat
  active_versions : List (Nat × Nat)
  deriving DecidableEq, Repr

/-- The SQLite database state. -/
structure TableStore where
  conversations : List ConvRow
  messages : List Row
  deriving DecidableEq, Repr

/-- Model of `ORDER BY position, version`. -/
def rowLE (a b : Row) : Prop :=
  a.position < b.position ∨ (a.position = b.position ∧ a.version ≤ b.version)

instance : DecidableRel rowLE := fun a b => by
  unfold rowLE
  exact inferInstance

/-- The `SELECT * FROM messages WHERE conversation_id = ? ORDER BY position,
version` query. -/
def convRows (t : TableStore) (cid : Nat) : List Row :=
  List.insertionSort rowLE (t.messages.filter (fun r => decide (r.conversation_id = cid)))

/-- Model of `max(position)` over the fetched rows (`max_position`). -/
def maxPos (rows : List Row) : Nat :=
  rows.foldl (fun m r => max m r.position) 0

/-- Python `max(matching, key=lambda m: m['version'])`: the first row whose
version is maximal. -/
def maxByVersion (r : Row) (rs : List Row) : Row :=
  rs.foldl (fun best m => if m.version > best.version then m else best) r

/-- Candidate filtering and selection at one position of the resolution walk
(get_conversation lines 198-237): filter by parent pointer with the
legacy version fallback and the all-candidates fallback, then prefer the
active-version override and default to the maximum version. -/
def resolveSelect (av : List (Nat × Nat)) (pos : Nat) (candidates : List Row)
    (parent : Option Nat) (prevVer : Option Nat) : Option Row :=
  let matching :=
    if pos = 0 then candidates
    else
      let m1 := candidates.filter (fun m => decide (m.parent_message_id = parent))
      let m2 :=
        if m1.isEmpty then
          match prevVer with
          | some pv =>
            if pv ≠ 0 then
              let vm := candidates.filter (fun m => decide (m.version = pv))
              if vm.isEmpty then m1 else vm
            else m1
          | none => m1
        else m1
      if m2.isEmpty then candidates else m2
  match matching with
  | [] => none
  | m0 :: ms =>
    some (match lookupKey av pos with
      | some v =>
        if v ≠ 0 then
          match matching.find? (fun m => decide (m.version = v)) with
          | some m => m
          | none => maxByVersion m0 ms
        else maxByVersion m0 ms
      | none => maxByVersion m0 ms)

/-- A resolved message with its version metadata (lines 246-249). -/
structure RowView where
  row : Row
  total_versions : Nat
  current_version : Nat
  deriving DecidableEq, Repr

/-- One position of the resolution walk: accumulated messages plus the
carried `current_parent_id` and `previous_selected_version`. -/
def walkStep (rows : List Row) (av : List (Nat × Nat))
    (acc : List RowView × Option Nat × Option Nat) (pos : Nat) :
    List RowView × Option Nat × Option Nat :=
  let candidates := rows.filter (fun r => decide (r.position = pos))
  match resolveSelect av pos candidates acc.2.1 acc.2.2 with
  | none => acc
  | some sel =>
    let vwsp := candidates.filter
      (fun m => decide (m.parent_message_id = sel.parent_message_id))
    let total := if vwsp.isEmpty then candidates.length else vwsp.length
    (acc.1 ++ [{ row := sel, total_versions := total, current_version := sel.version }],
     some sel.id, some sel.version)

/-- Model of `get_conversation` of the SQLite store (conversation_store.py lines
138-260): `none` for a missing conversation, otherwise the sequential
parent-pointer resolution walk over positions `0 .. max_position`.  The
database is only read, so the state is returned unchanged. -/
def sq_get_conversation (t : TableStore) (cid : Nat) :
    Option (List RowView) × TableStore :=
  match t.conversations.find? (fun c => decide (c.id = cid)) with
  | none => (none, t)
  | some conv =>
    let rows := convRows t cid
    if rows.isEmpty then (some [], t)
    else
      (some ((List.range (maxPos rows + 1)).foldl
        (walkStep rows conv.active_versions) ([], none, none)).1, t)

/-- Model of `update_message_content` of the SQLite store (lines 383-413):
`UPDATE messages SET content = ?, thinking = ? WHERE id = ?`, then
`total_changes > 0` on the per-call connection — the row is located by
`message_id` alone; `conversation_id`, `branch`, `tool_results` and
`streaming` do not enter the statement. -/
def sq_update_message_content (t : TableStore) (conversation_id : Nat)
    (message_id : Nat) (content : String) (thinking : Option String)
    (branch : Option (List Nat)) : Bool × TableStore :=
  let changes := (t.messages.filter (fun r => decide (r.id = message_id))).length
  let updated := t.messages.map (fun r =>
    if r.id = message_id then { r with content := content, thinking := thinking } else r)
  (decide (changes > 0), { t with messages := updated })

/-- Model of `delete_messages_from` of the SQLite store (lines 850-889): false when the
conversation row is missing; otherwise `DELETE FROM messages WHERE
conversation_id = ? AND position >= ?` followed by the unconditional
`UPDATE conversations SET updated_at = ?` on the same fresh connection, and
the returned boolean is `db.total_changes > 0` — which counts the deleted
rows plus the one conversation row changed by the UPDATE. -/
def sq_delete_messages_from (t : TableStore) (conversation_id : Nat) (position : Nat)
    (branch : Option (List Nat)) : Bool × TableStore :=
  match t.conversations.find? (fun c => decide (c.id = conversation_id)) with
  | none => (false, t)
  | some _ =>
    let deleted := (t.messages.filter
      (fun r => decide (r.conversation_id = conversation_id ∧ r.position ≥ position))).length
    let total_changes := deleted + 1
    let remaining := t.messages.filter (fun r =>
      !decide (r.conversation_id = conversation_id ∧ r.position ≥ position))
    (decide (total_changes > 0), { t with messages := remaining })

/-- A demo SQLite conversation equivalent to `demoStore`: one conversation
row and one message row per resolved message of the file store's branch. -/
def demoTable : TableStore :=
  { conversations := [{ id := 1, active_versions := [] }],
    messages := [
      { id := 10, conversation_id := 1, role := Role.user, content := "hi",
        thinking := none, position := 0, version := 1, parent_message_id := none },
      { id := 11, conversation_id := 1, role := Role.assistant, content := "hello",
        thinking := none, position := 1, version := 1, parent_message_id := some 10 }] }

/-! ## Streaming session registry (streaming_service.py)

Conversation ids are opaque keys, modelled as `Nat`.  An `asyncio.Event` is
modelled as `Option Bool`: `none` means no event, `some b` an event whose
set-flag is `b`.  The two Python dicts `_streams` and `_steer_contexts` are
association lists. -/

/-- Model of `StreamType` (streaming_service.py lines 15-18). -/
inductive StreamType where
  | NORMAL
  | AGENT
  deriving DecidableEq, Repr

/-- Model of `SteerContext` (lines 21-26); partial content blocks kept
opaque. -/
structure SteerContextM where
  guidance : String
  partial_content : List String
  created_at : Nat
  deriving DecidableEq, Repr

/-- Model of `StreamState` (lines 29-40). -/
structure StreamStateM where
  stream_type : StreamType
  stop_event : Option Bool
  task_id : Option Nat
  title : Option String
  conversation_id : Option Nat
  started_at : Option Nat
  deriving DecidableEq, Repr

/-- Model of `StreamingService` (lines 43-49). -/
structure StreamingServiceM where
  streams : List (Nat × StreamStateM)
  steer_contexts : List (Nat × SteerContextM)
  deriving DecidableEq, Repr

/-- Model of `start_stream` (lines 51-82): agent streams get a fresh (unset)
stop event and task id; the new state replaces any registered stream for the
conversation.  `now` and `fresh_task` stand for `time.time()` and the
generated uuid. -/
def start_stream (s : StreamingServiceM) (cid : Nat) (ty : StreamType)
    (title : Option String) (now fresh_task : Nat) :
    Option Bool × StreamingServiceM :=
  let stop_event : Option Bool := if ty = StreamType.AGENT then some false else none
  let task_id : Option Nat := if ty = StreamType.AGENT then some fresh_task else none
  let st : StreamStateM :=
    { stream_type := ty, stop_event := stop_event, task_id := task_id,
      title := title, conversation_id := some cid, started_at := some now }
  (stop_event, { s with streams := setKey s.streams cid st })

/-- Model of `end_stream` (lines 84-96). -/
def end_stream (s : StreamingServiceM) (cid : Nat) : Bool × StreamingServiceM :=
  if (lookupKey s.streams cid).isSome
  then (true, { s with streams := delKey s.streams cid })
  else (false, s)

/-- Model of `stop_stream` (lines 122-139): false when no stream is
registered or the stream is not an agent stream with a stop event; otherwise
set the event. -/
def stop_stream (s : StreamingServiceM) (cid : Nat) : Bool × StreamingServiceM :=
  match lookupKey s.streams cid with
  | none => (false, s)
  | some st =>
    if st.stream_type ≠ StreamType.AGENT ∨ st.stop_event = none then (false, s)
    else (true, { s with streams := setKey s.streams cid { st with stop_event := some true } })

/-- Model of `set_steer_context` (lines 170-186): stored in the separate
dict, always returns true. -/
def set_steer_context (s : StreamingServiceM) (cid : Nat) (ctx : SteerContextM) :
    Bool × StreamingServiceM :=
  (true, { s with steer_contexts := setKey s.steer_contexts cid ctx })

/-- Model of `get_steer_context` (lines 188-201): a pure dict read, no state
change. -/
def get_steer_context (s : StreamingServiceM) (cid : Nat) :
    Option SteerContextM × StreamingServiceM :=
  (lookupKey s.steer_contexts cid, s)

/-- Model of `clear_steer_context` (lines 203-216). -/
def clear_steer_context (s : StreamingServiceM) (cid : Nat) :
    Bool × StreamingServiceM :=
  if (lookupKey s.steer_contexts cid).isSome
  then (true, { s with steer_contexts := delKey s.steer_contexts cid })
  else (false, s)

/-- An empty registry, to instantiate the theorems. -/
def demoService : StreamingServiceM := { streams := [], steer_contexts := [] }

/-- A sample steering context. -/
def demoCtx : SteerContextM :=
  { guidance := "focus on tests", partial_content := ["partial"], created_at := 7 }

/-! ## Theorems -/

theorem natDigitsAux_eq (fuel n : Nat) (h : n ≤ fuel) :
    natDigitsAux fuel n = Nat.digits 10 n := by
  induction fuel generalizing n with
  | zero =>
    interval_cases n
    simp [natDigitsAux]
  | succ fuel ih =>
    cases n with
    | zero => simp [natDigitsAux]
    | succ m =>
      rw [natDigitsAux, Nat.digits_def' (by norm_num : (1 : Nat) < 10) (Nat.succ_pos m),
        ih ((m + 1) / 10) ?_]
      have hlt : (m + 1) / 10 < m + 1 := Nat.div_lt_self (Nat.succ_pos m) (by norm_num)
      omega

theorem natDigits_eq (n : Nat) : natDigits n = Nat.digits 10 n :=
  natDigitsAux_eq n n le_rfl

theorem charVal_digitChar {d : Nat} (h : d < 10) : charVal (digitChar d) = d := by
  interval_cases d <;> decide

theorem digitChar_ne_underscore {d : Nat} (h : d < 10) : digitChar d ≠ '_' := by
  interval_cases d <;> decide

theorem digitChar_ne_dot {d : Nat} (h : d < 10) : digitChar d ≠ '.' := by
  interval_cases d <;> decide

theorem natRepr_ne_nil (n : Nat) : natRepr n ≠ [] := by
  by_cases h : n = 0
  · subst h; decide
  · simp only [natRepr, h, if_false, natDigits_eq]
    simp [Nat.digits_ne_nil_iff_ne_zero, h]

theorem mem_natRepr {c : Char} {n : Nat} (hc : c ∈ natRepr n) : c ≠ '_' ∧ c ≠ '.' := by
  by_cases h : n = 0
  · subst h
    simp [natRepr] at hc
    rw [show c = '0' from hc]
    exact ⟨by decide, by decide⟩
  · simp only [natRepr, h, if_false, natDigits_eq, List.mem_map, List.mem_reverse] at hc
    obtain ⟨d, hd, rfl⟩ := hc
    have hlt : d < 10 := Nat.digits_lt_base (by norm_num) hd
    exact ⟨digitChar_ne_underscore hlt, digitChar_ne_dot hlt⟩

theorem parseNat_natRepr (n : Nat) : parseNat (natRepr n) = n := by
  by_cases h : n = 0
  · subst h; decide
  · unfold parseNat
    have hrepr : natRepr n = (Nat.digits 10 n).reverse.map digitChar := by
      simp [natRepr, h, natDigits_eq]
    rw [hrepr, List.map_map]
    have hid : (Nat.digits 10 n).reverse.map (charVal ∘ digitChar)
        = (Nat.digits 10 n).reverse.map id := by
      refine List.map_congr_left ?_
      intro d hd
      simp only [Function.comp_apply, id_eq]
      exact charVal_digitChar (Nat.digits_lt_base (by norm_num) (List.mem_reverse.mp hd))
    rw [hid, List.map_id, List.reverse_reverse, Nat.ofDigits_digits]

theorem stripJson_cons_ne_dot {c : Char} (hc : c ≠ '.') (t : List Char) :
    stripJson (c :: t) = c :: stripJson t := by
  conv_lhs => rw [stripJson.eq_def]
  split
  · rename_i h
    injection h with h1 _
    exact absurd h1 hc
  · rename_i h
    injection h with h1 h2
    rw [h1, h2]
  · rename_i h
    exact absurd h (by simp)

theorem stripJson_append_ext : ∀ s : List Char, '.' ∉ s → stripJson (s ++ jsonExt) = s
  | [], _ => by decide
  | c :: cs, h => by
    have hc : c ≠ '.' := fun hh => h (hh ▸ List.mem_cons_self c cs)
    have ih := stripJson_append_ext cs (fun hm => h (List.mem_cons_of_mem c hm))
    rw [List.cons_append, stripJson_cons_ne_dot hc, ih]

theorem not_mem_intercalate {c sep : Char} :
    ∀ ls : List (List Char), (∀ l ∈ ls, c ∉ l) → c ≠ sep →
      c ∉ List.intercalate [sep] ls
  | [], _, _ => by simp [List.intercalate]
  | [l], h, _ => by
    simpa [List.intercalate] using h l (List.mem_singleton_self l)
  | l1 :: l2 :: rest, h, hsep => by
    have ih := not_mem_intercalate (l2 :: rest)
      (fun x hx => h x (List.mem_cons_of_mem l1 hx)) hsep
    have h1 := h l1 (List.mem_cons_self l1 (l2 :: rest))
    simp only [List.intercalate, List.intersperse_cons_cons, List.flatten_cons,
      List.mem_append, List.mem_singleton] at ih ⊢
    rintro (hin | hin | hin)
    · exact h1 hin
    · exact hsep hin
    · exact ih hin

theorem intercalate_cons_ne_nil {sep : Char} (l : List Char) (ls : List (List Char))
    (hl : l ≠ []) : List.intercalate [sep] (l :: ls) ≠ [] := by
  cases ls with
  | nil => simpa [List.intercalate] using hl
  | cons l2 rest =>
    simp [List.intercalate, List.intersperse_cons_cons]

theorem dropZerosButOne_ne_nil : ∀ l : List Nat, l ≠ [] → dropZerosButOne l ≠ []
  | [], h => absurd rfl h
  | [x], _ => by simp [dropZerosButOne]
  | x :: y :: rest, _ => by
    rw [dropZerosButOne]
    by_cases hx : x = 0
    · simpa [hx] using dropZerosButOne_ne_nil (y :: rest) (by simp)
    · simp [hx]

theorem stripTrailing_ne_nil (p : List Nat) (hp : p ≠ []) : stripTrailing p ≠ [] := by
  unfold stripTrailing
  have := dropZerosButOne_ne_nil p.reverse (by simpa using hp)
  simpa using this

theorem dropZerosButOne_eq : ∀ l : List Nat,
    dropZerosButOne l =
      if l.dropWhile (fun x => x == 0) = []
      then (if l = [] then [] else [0])
      else l.dropWhile (fun x => x == 0)
  | [] => by simp [dropZerosButOne]
  | [x] => by
    by_cases hx : x = 0
    · subst hx; simp [dropZerosButOne, List.dropWhile]
    · have hb : (x == 0) = false := by simpa using hx
      simp [dropZerosButOne, List.dropWhile, hx, hb]
  | x :: y :: rest => by
    by_cases hx : x = 0
    · subst hx
      have ih := dropZerosButOne_eq (y :: rest)
      rw [dropZerosButOne, if_pos rfl, ih]
      simp [List.dropWhile]
    · have hb : (x == 0) = false := by simpa using hx
      rw [dropZerosButOne, if_neg hx]
      simp [List.dropWhile, hb]

theorem stripTrailing_eq_spec (p : List Nat) (hp : p ≠ []) :
    stripTrailing p = specStripTrailing p := by
  unfold stripTrailing specStripTrailing
  rw [dropZerosButOne_eq]
  have hrev : p.reverse ≠ [] := by simpa using hp
  by_cases h : p.reverse.dropWhile (fun x => x == 0) = []
  · simp [h, hrev]
  · simp [h]

/-- C1: branch-address compression round-trip.  For every branch path `p`,
`filename_to_branch_array (branch_array_to_filename p)` equals `p` with its
trailing zeros removed, keeping at least one element (the empty path and the
empty key both map to `[0]`); moreover `[0] ↦ "0.json"`, `[1,0,0] ↦ "1.json"`,
`[0,1,0] ↦ "0_1.json"`. -/
theorem branch_key_roundtrip :
    (∀ p : List Nat, filename_to_branch_array (branch_array_to_filename p)
        = specStripTrailing p)
    ∧ branch_array_to_filename [0] = ['0'] ++ jsonExt
    ∧ branch_array_to_filename [1, 0, 0] = ['1'] ++ jsonExt
    ∧ branch_array_to_filename [0, 1, 0] = ['0', '_', '1'] ++ jsonExt
    ∧ filename_to_branch_array [] = [0]
    ∧ filename_to_branch_array (branch_array_to_filename []) = [0] := by
  refine ⟨?_, by decide, by decide, by decide, by decide, by decide⟩
  intro p
  by_cases hp : p = []
  · subst hp; decide
  · have hpieces : ∀ l ∈ (stripTrailing p).map natRepr, '_' ∉ l ∧ '.' ∉ l := by
      intro l hl
      obtain ⟨m, _, rfl⟩ := List.mem_map.mp hl
      constructor
      · intro hmem; exact (mem_natRepr hmem).1 rfl
      · intro hmem; exact (mem_natRepr hmem).2 rfl
    have hdotfree : '.' ∉ List.intercalate ['_'] ((stripTrailing p).map natRepr) :=
      not_mem_intercalate _ (fun l hl => (hpieces l hl).2) (by decide)
    obtain ⟨a, as, ha⟩ := List.exists_cons_of_ne_nil (stripTrailing_ne_nil p hp)
    have hne : List.intercalate ['_'] ((stripTrailing p).map natRepr) ≠ [] := by
      rw [ha, List.map_cons]
      exact intercalate_cons_ne_nil _ _ (natRepr_ne_nil a)
    simp only [branch_array_to_filename, filename_to_branch_array, hp, if_false,
      stripJson_append_ext _ hdotfree, hne,
      List.splitOn_intercalate _ '_' (fun l hl => (hpieces l hl).1)
        (by rw [ha, List.map_cons]; exact List.cons_ne_nil _ _),
      List.map_map]
    rw [show (stripTrailing p).map (parseNat ∘ natRepr) = (stripTrailing p).map id from
        List.map_congr_left (fun m _ => parseNat_natRepr m),
      List.map_id, stripTrailing_eq_spec p hp]

/-! ### Support lemmas about the branch utilities -/

theorem mem_sortMultiset {m : Multiset Nat} {a : Nat} :
    a ∈ sortMultiset m ↔ a ∈ m :=
  Quotient.inductionOn m fun l => (List.perm_insertionSort (· ≤ ·) l).mem_iff

theorem length_sortMultiset (m : Multiset Nat) :
    (sortMultiset m).length = Multiset.card m :=
  Quotient.inductionOn m fun l => (List.perm_insertionSort (· ≤ ·) l).length_eq

theorem nodup_sortMultiset {m : Multiset Nat} (h : m.Nodup) :
    (sortMultiset m).Nodup :=
  Quotient.inductionOn m (fun l hl => ((List.perm_insertionSort (· ≤ ·) l).nodup_iff).mpr hl) h

theorem sorted_sortMultiset (m : Multiset Nat) :
    List.Sorted (· ≤ ·) (sortMultiset m) :=
  Quotient.inductionOn m fun l => List.sorted_insertionSort _ l

theorem mem_sortedVals {s : Finset Nat} {a : Nat} : a ∈ sortedVals s ↔ a ∈ s :=
  mem_sortMultiset

theorem length_sortedVals (s : Finset Nat) : (sortedVals s).length = s.card :=
  length_sortMultiset s.val

theorem nodup_sortedVals (s : Finset Nat) : (sortedVals s).Nodup :=
  nodup_sortMultiset s.nodup

theorem sorted_sortedVals (s : Finset Nat) : List.Sorted (· ≤ ·) (sortedVals s) :=
  sorted_sortMultiset s.val

theorem length_extend (b : List Nat) (n : Nat) :
    (extend_branch_array b n).length = n := by
  unfold extend_branch_array
  split
  · simp; omega
  · simp; omega

theorem extend_append_replicate (r : List Nat) (k n : Nat) :
    extend_branch_array (r ++ List.replicate k 0) n = extend_branch_array r n := by
  unfold extend_branch_array
  rcases le_or_lt n r.length with h | h
  · rw [if_pos (by simp; omega), if_pos h, List.take_append_eq_append_take,
      Nat.sub_eq_zero_of_le h]
    simp
  · rcases le_or_lt n (r.length + k) with h2 | h2
    · rw [if_pos (by simp; omega), if_neg (by omega), List.take_append_eq_append_take,
        List.take_of_length_le (le_of_lt h), List.take_replicate]
      congr 2
      rw [inf_eq_min, Nat.min_eq_left (by omega)]
    · rw [if_neg (by simp; omega), if_neg (by omega), List.append_assoc,
        ← List.replicate_add]
      congr 2
      simp
      omega

theorem canon_decomp (b : List Nat) :
    (∃ k, b = List.replicate k 0 ∧ canon b = [0]) ∨ (∃ k, b = canon b ++ List.replicate k 0) := by
  set t := b.reverse.takeWhile (fun x : Nat => x == 0) with ht
  set d := b.reverse.dropWhile (fun x : Nat => x == 0) with hd
  have hsplit : t ++ d = b.reverse := List.takeWhile_append_dropWhile _ _
  have htrep : t = List.replicate t.length 0 := by
    refine List.eq_replicate_of_mem ?_
    intro x hx
    rw [ht] at hx
    simpa using List.mem_takeWhile_imp hx
  have hb : b = d.reverse ++ List.replicate t.length 0 := by
    have h1 : b = d.reverse ++ t.reverse := by
      conv_lhs => rw [← List.reverse_reverse b, ← hsplit, List.reverse_append]
    rw [h1]
    congr 1
    conv_lhs => rw [htrep]
    exact List.reverse_replicate _ _
  by_cases hnil : d.reverse = []
  · left
    refine ⟨t.length, ?_, ?_⟩
    · rw [hb, hnil, List.nil_append]
    · simp only [canon, specStripTrailing, ← hd]
      rw [if_pos hnil]
  · right
    refine ⟨t.length, ?_⟩
    have hc : canon b = d.reverse := by
      simp only [canon, specStripTrailing, ← hd]
      rw [if_neg hnil]
    rw [hc]
    exact hb

theorem extend_canon (b : List Nat) (n : Nat) :
    extend_branch_array (canon b) n = extend_branch_array b n := by
  rcases canon_decomp b with ⟨k, hb, hc⟩ | ⟨k, hb⟩
  · rw [hc]
    have h1 : extend_branch_array (([] : List Nat) ++ List.replicate 1 0) n
        = extend_branch_array [] n := extend_append_replicate [] 1 n
    have h2 : extend_branch_array (([] : List Nat) ++ List.replicate k 0) n
        = extend_branch_array [] n := extend_append_replicate [] k n
    have hb' : extend_branch_array b n = extend_branch_array [] n := by
      rw [hb]
      simpa using h2
    rw [hb']
    simpa using h1
  · conv_rhs => rw [hb, extend_append_replicate]

theorem tagAt_canon (b : List Nat) (u : Nat) : tagAt (canon b) u = tagAt b u := by
  unfold tagAt
  rw [extend_canon]

theorem tagAt_append_last (pre : List Nat) (m u : Nat) (h : pre.length = u) :
    tagAt (pre ++ [m]) u = m := by
  unfold tagAt extend_branch_array
  rw [if_pos (by simp [h]), List.take_of_length_le (by simp [h]),
    List.getD_append_right _ _ _ _ (by omega)]
  simp [h]

theorem extend_append_last (pre : List Nat) (m u : Nat) (h : pre.length = u) :
    extend_branch_array (pre ++ [m]) u = pre := by
  unfold extend_branch_array
  rw [if_pos (by simp [h]), List.take_append_eq_append_take,
    List.take_of_length_le (by omega)]
  simp [h]

theorem mem_branchValues {arrays : List (List Nat)} {pre : List Nat} {u x : Nat} :
    x ∈ branchValues arrays pre u ↔
      ∃ f, f ∈ arrays ∧ extend_branch_array f u = pre ∧ tagAt f u = x := by
  simp only [branchValues, List.mem_toFinset, List.mem_map, List.mem_filter,
    decide_eq_true_eq]
  constructor
  · rintro ⟨f, ⟨hf1, hf2⟩, hf3⟩
    exact ⟨f, hf1, hf2, hf3⟩
  · rintro ⟨f, hf1, hf2, hf3⟩
    exact ⟨f, ⟨hf1, hf2⟩, hf3⟩

theorem branchValues_append (arrays : List (List Nat)) (g : List Nat)
    (pre : List Nat) (u : Nat) :
    branchValues (arrays ++ [g]) pre u =
      if extend_branch_array g u = pre
      then branchValues arrays pre u ∪ {tagAt g u}
      else branchValues arrays pre u := by
  by_cases h : extend_branch_array g u = pre <;>
    simp [branchValues, List.filter_append, h, List.toFinset_append, List.filter_cons]

theorem lowestUnusedAux_spec (used : Finset Nat) :
    ∀ (fuel n : Nat), (∃ m, n ≤ m ∧ m < n + fuel ∧ m ∉ used) →
      lowestUnusedAux used fuel n ∉ used ∧
      n ≤ lowestUnusedAux used fuel n ∧
      ∀ k, n ≤ k → k < lowestUnusedAux used fuel n → k ∈ used
  | 0, n, h => by
    obtain ⟨m, h1, h2, _⟩ := h
    exact absurd (lt_of_le_of_lt h1 h2) (by omega)
  | fuel + 1, n, h => by
    rw [lowestUnusedAux]
    by_cases hn : n ∈ used
    · rw [if_pos hn]
      obtain ⟨m, h1, h2, h3⟩ := h
      have hmn : m ≠ n := fun he => h3 (he ▸ hn)
      have ih := lowestUnusedAux_spec used fuel (n + 1) ⟨m, by omega, by omega, h3⟩
      refine ⟨ih.1, by omega, ?_⟩
      intro k hk1 hk2
      rcases Nat.eq_or_lt_of_le hk1 with he | hlt
      · rwa [← he]
      · exact ih.2.2 k hlt hk2
    · rw [if_neg hn]
      exact ⟨hn, le_rfl, fun k hk1 hk2 => absurd (lt_of_le_of_lt hk1 hk2) (lt_irrefl n)⟩

theorem lowestUnused_spec (used : Finset Nat) :
    lowestUnused used ∉ used ∧ ∀ k, k < lowestUnused used → k ∈ used := by
  have hex : ∃ m, 0 ≤ m ∧ m < 0 + (used.card + 1) ∧ m ∉ used := by
    by_contra hall
    push_neg at hall
    have hsub : Finset.range (used.card + 1) ⊆ used := by
      intro m hm
      exact hall m (Nat.zero_le m) (by simpa using hm)
    have := Finset.card_le_card hsub
    simp [Finset.card_range] at this
  have h := lowestUnusedAux_spec used (used.card + 1) 0 hex
  exact ⟨h.1, fun k hk => h.2.2 k (Nat.zero_le k) hk⟩

/-! ### Support lemmas about dictionary lookup and assignment -/

theorem findFile_eq_lookupKey (s : FileStore) (b : List Nat) :
    findFile s b = lookupKey s.files (canon b) := rfl

theorem lookupKey_cons {κ α : Type} [DecidableEq κ] (p : κ × α) (ps : List (κ × α)) (k : κ) :
    lookupKey (p :: ps) k = if p.1 = k then some p.2 else lookupKey ps k := by
  by_cases h : p.1 = k <;> simp [lookupKey, List.find?_cons, h]

theorem lookupKey_isSome_iff {κ α : Type} [DecidableEq κ] (d : List (κ × α)) (k : κ) :
    (lookupKey d k).isSome ↔ k ∈ d.map Prod.fst := by
  induction d with
  | nil => simp [lookupKey]
  | cons p ps ih =>
    rw [lookupKey_cons]
    by_cases h : p.1 = k
    · simp [h]
    · have hh : ¬ k = p.1 := fun he => h he.symm
      simp [h, ih, hh]

theorem any_key_iff {κ α : Type} [DecidableEq κ] {d : List (κ × α)} {k : κ} :
    d.any (fun p => decide (p.1 = k)) = true ↔ k ∈ d.map Prod.fst := by
  simp [List.any_eq_true, List.mem_map]

theorem lookupKey_update {κ α : Type} [DecidableEq κ] (d : List (κ × α)) (k : κ) (v : α) :
    lookupKey (d.map (fun p => if p.1 = k then (p.1, v) else p)) k
      = if k ∈ d.map Prod.fst then some v else none := by
  induction d with
  | nil => simp [lookupKey]
  | cons p ps ih =>
    simp only [List.map_cons]
    by_cases h : p.1 = k
    · rw [if_pos h, lookupKey_cons,
        if_pos (show (p.1, v).1 = k from h),
        if_pos (List.mem_cons.mpr (Or.inl h.symm))]
    · have hh : ¬ k = p.1 := fun he => h he.symm
      rw [if_neg h, lookupKey_cons, if_neg h, ih]
      by_cases hm : k ∈ List.map Prod.fst ps
      · rw [if_pos hm, if_pos (List.mem_cons.mpr (Or.inr hm))]
      · rw [if_neg hm, if_neg (fun hc => hm ((List.mem_cons.mp hc).resolve_left hh))]

theorem lookupKey_append_one {κ α : Type} [DecidableEq κ] (d : List (κ × α)) (k k2 : κ)
    (v : α) :
    lookupKey (d ++ [(k2, v)]) k
      = match lookupKey d k with
        | some m => some m
        | none => if k2 = k then some v else none := by
  induction d with
  | nil => simp [lookupKey_cons, lookupKey]
  | cons p ps ih =>
    rw [List.cons_append, lookupKey_cons, lookupKey_cons]
    by_cases h : p.1 = k <;> simp [h, ih]

theorem lookupKey_setKey_same {κ α : Type} [DecidableEq κ] (d : List (κ × α)) (k : κ)
    (v : α) :
    lookupKey (setKey d k v) k = some v := by
  unfold setKey
  by_cases hmem : k ∈ d.map Prod.fst
  · rw [if_pos (any_key_iff.mpr hmem), lookupKey_update, if_pos hmem]
  · rw [if_neg (fun hh => hmem (any_key_iff.mp hh)), lookupKey_append_one]
    have hnone : lookupKey d k = none := by
      rcases ho : lookupKey d k with _ | m
      · rfl
      · exact absurd ((lookupKey_isSome_iff d k).mp (by rw [ho]; rfl)) hmem
    rw [hnone]
    simp

theorem lookupKey_update_ne {κ α : Type} [DecidableEq κ] (d : List (κ × α)) (k k2 : κ)
    (v : α) (hne : k2 ≠ k) :
    lookupKey (d.map (fun p => if p.1 = k then (p.1, v) else p)) k2
      = lookupKey d k2 := by
  induction d with
  | nil => simp
  | cons p ps ih =>
    rw [List.map_cons, lookupKey_cons]
    by_cases h : p.1 = k
    · rw [if_pos h]
      have hh : ¬ p.1 = k2 := fun he => hne (he.symm.trans h)
      rw [lookupKey_cons]
      simp [hh, ih]
    · rw [if_neg h, lookupKey_cons, ih]

theorem lookupKey_setKey_ne {κ α : Type} [DecidableEq κ] (d : List (κ × α)) (k k2 : κ)
    (v : α) (hne : k2 ≠ k) :
    lookupKey (setKey d k v) k2 = lookupKey d k2 := by
  unfold setKey
  split
  · exact lookupKey_update_ne d k k2 v hne
  · rw [lookupKey_append_one]
    rcases ho : lookupKey d k2 with _ | m
    · have hh : ¬ k = k2 := fun he => hne he.symm
      simp [hh]
    · rfl

theorem lookupKey_delKey_same {κ α : Type} [DecidableEq κ] (d : List (κ × α)) (k : κ) :
    lookupKey (delKey d k) k = none := by
  induction d with
  | nil => rfl
  | cons p ps ih =>
    rw [delKey, List.filter_cons]
    by_cases h : p.1 = k
    · rw [if_neg (by simp [h])]
      exact ih
    · rw [if_pos (by simp [h]), lookupKey_cons, if_neg h]
      exact ih

theorem lookupKey_delKey_ne {κ α : Type} [DecidableEq κ] (d : List (κ × α)) (k k2 : κ)
    (hne : k2 ≠ k) :
    lookupKey (delKey d k) k2 = lookupKey d k2 := by
  induction d with
  | nil => rfl
  | cons p ps ih =>
    rw [delKey, List.filter_cons]
    by_cases h : p.1 = k
    · have hh : ¬ p.1 = k2 := fun he => hne (he.symm.trans h)
      rw [if_neg (by simp [h]), lookupKey_cons, if_neg hh]
      exact ih
    · rw [if_pos (by simp [h]), lookupKey_cons, lookupKey_cons]
      by_cases h2 : p.1 = k2
      · rw [if_pos h2, if_pos h2]
      · rw [if_neg h2, if_neg h2]
        exact ih

theorem lookupKey_writeFile_same (files : List (List Nat × List Msg)) (b : List Nat)
    (msgs : List Msg) :
    lookupKey (writeFile files b msgs) (canon b) = some msgs :=
  lookupKey_setKey_same files (canon b) msgs

theorem lookupKey_writeFile_ne (files : List (List Nat × List Msg)) (b key : List Nat)
    (msgs : List Msg) (hne : key ≠ canon b) :
    lookupKey (writeFile files b msgs) key = lookupKey files key :=
  lookupKey_setKey_ne files (canon b) key msgs hne

theorem setKey_keys_of_not_mem {κ α : Type} [DecidableEq κ] (d : List (κ × α)) (k : κ)
    (v : α) (h : k ∉ d.map Prod.fst) :
    (setKey d k v).map Prod.fst = d.map Prod.fst ++ [k] := by
  unfold setKey
  rw [if_neg (fun hh => h (any_key_iff.mp hh)), List.map_append]
  simp

theorem writeFile_keys_of_not_mem (files : List (List Nat × List Msg)) (b : List Nat)
    (msgs : List Msg) (h : canon b ∉ files.map Prod.fst) :
    (writeFile files b msgs).map Prod.fst = files.map Prod.fst ++ [canon b] :=
  setKey_keys_of_not_mem files (canon b) msgs h

theorem setKey_keys_of_mem {κ α : Type} [DecidableEq κ] (d : List (κ × α)) (k : κ)
    (v : α) (h : k ∈ d.map Prod.fst) :
    (setKey d k v).map Prod.fst = d.map Prod.fst := by
  unfold setKey
  rw [if_pos (any_key_iff.mpr h), List.map_map]
  refine List.map_congr_left ?_
  intro p _
  by_cases hp : p.1 = k <;> simp [hp]

/-! ### Support lemmas about user-message positions -/

theorem mem_userPositionsFrom : ∀ (l : List Msg) (i x : Nat),
    x ∈ userPositionsFrom i l → i ≤ x ∧ x < i + l.length
  | [], i, x, h => by simp [userPositionsFrom] at h
  | m :: rest, i, x, h => by
    rw [userPositionsFrom] at h
    by_cases hr : m.role = Role.user
    · rw [if_pos hr] at h
      rcases List.mem_cons.mp h with he | hm
      · subst he
        simp
      · have hb := mem_userPositionsFrom rest (i + 1) x hm
        simp only [List.length_cons]
        omega
    · rw [if_neg hr] at h
      have hb := mem_userPositionsFrom rest (i + 1) x h
      simp only [List.length_cons]
      omega

theorem userPositionsFrom_append (l1 l2 : List Msg) (i : Nat) :
    userPositionsFrom i (l1 ++ l2)
      = userPositionsFrom i l1 ++ userPositionsFrom (i + l1.length) l2 := by
  induction l1 generalizing i with
  | nil => simp [userPositionsFrom]
  | cons m rest ih =>
    have heq : i + 1 + rest.length = i + (m :: rest).length := by
      simp only [List.length_cons]
      omega
    rw [List.cons_append, userPositionsFrom, userPositionsFrom]
    by_cases hr : m.role = Role.user
    · rw [if_pos hr, if_pos hr, ih, heq, List.cons_append]
    · rw [if_neg hr, if_neg hr, ih, heq]

theorem userPositionsFrom_take : ∀ (l : List Msg) (i u e : Nat),
    (userPositionsFrom i l).get? u = some e →
    userPositionsFrom i (l.take (e - i)) = (userPositionsFrom i l).take u ∧
    ((userPositionsFrom i l).take u).length = u
  | [], i, u, e, h => by simp [userPositionsFrom] at h
  | m :: rest, i, u, e, h => by
    by_cases hr : m.role = Role.user
    · rw [userPositionsFrom, if_pos hr] at h
      cases u with
      | zero =>
        have he : i = e := by simpa using h
        subst he
        simp [userPositionsFrom]
      | succ u' =>
        have h' : (userPositionsFrom (i + 1) rest).get? u' = some e := by
          simpa using h
        have hbound := mem_userPositionsFrom rest (i + 1) e (List.get?_mem h')
        have ih := userPositionsFrom_take rest (i + 1) u' e h'
        have hei : e - i = (e - (i + 1)) + 1 := by omega
        constructor
        · rw [hei, List.take_succ_cons, userPositionsFrom, if_pos hr, ih.1,
            userPositionsFrom, if_pos hr, List.take_succ_cons]
        · rw [userPositionsFrom, if_pos hr, List.take_succ_cons]
          simp [ih.2]
    · rw [userPositionsFrom, if_neg hr] at h
      have hbound := mem_userPositionsFrom rest (i + 1) e (List.get?_mem h)
      have ih := userPositionsFrom_take rest (i + 1) u e h
      have hei : e - i = (e - (i + 1)) + 1 := by omega
      constructor
      · rw [hei, List.take_succ_cons, userPositionsFrom, if_neg hr, ih.1,
          userPositionsFrom, if_neg hr]
      · rw [userPositionsFrom, if_neg hr]
        exact ih.2

theorem userPositions_get?_lt (msgs : List Msg) (u e : Nat)
    (h : (userPositions msgs).get? u = some e) : e < msgs.length := by
  have := mem_userPositionsFrom msgs 0 e (List.get?_mem h)
  omega

theorem userPositions_new (msgs : List Msg) (u e : Nat) (c : String)
    (h : (userPositions msgs).get? u = some e) :
    (userPositions (msgs.take e ++ [{ role := Role.user, content := c, thinking := none }])).get? u
      = some e := by
  have hlt := userPositions_get?_lt msgs u e h
  have htk := userPositionsFrom_take msgs 0 u e h
  have hlen : (msgs.take e).length = e := by
    simp
    omega
  have htk1 : userPositionsFrom 0 (msgs.take e) = (userPositionsFrom 0 msgs).take u := by
    simpa using htk.1
  have htk2 : ((userPositionsFrom 0 msgs).take u).length = u := htk.2
  rw [userPositions, userPositionsFrom_append, htk1, hlen,
    List.get?_append_right (le_of_eq htk2), htk2]
  simp [userPositionsFrom]

/-! ### The effect of one create_branch call -/

theorem create_branch_step (s : FileStore) (cb : List Nat) (u : Nat) (c : String)
    (msgs : List Msg) (e : Nat)
    (hf : findFile s cb = some msgs) (he : (userPositions msgs).get? u = some e) :
    ∃ s' r, create_branch s cb u c = some (s', r) ∧
      r.branch = extend_branch_array cb u ++
        [lowestUnused (branchValues (s.files.map Prod.fst) (extend_branch_array cb u) u)] ∧
      r.position = e ∧
      s'.current_branch = r.branch ∧
      findFile s' r.branch
        = some (msgs.take e ++ [{ role := Role.user, content := c, thinking := none }]) ∧
      s'.files.map Prod.fst = s.files.map Prod.fst ++ [canon r.branch] ∧
      branchValues (s'.files.map Prod.fst) (extend_branch_array cb u) u
        = insert
            (lowestUnused (branchValues (s.files.map Prod.fst) (extend_branch_array cb u) u))
            (branchValues (s.files.map Prod.fst) (extend_branch_array cb u) u) ∧
      canon r.branch ≠ canon cb ∧
      r.version = lowestUnused (branchValues (s.files.map Prod.fst) (extend_branch_array cb u) u) + 1 ∧
      r.total_versions = (branchValues (s.files.map Prod.fst) (extend_branch_array cb u) u).card + 1 := by
  set pre := extend_branch_array cb u with hpre
  set used := branchValues (s.files.map Prod.fst) pre u with hused
  set m := lowestUnused used with hm
  set nb := pre ++ [m] with hnb
  have hpre_len : pre.length = u := length_extend cb u
  have hcanon_mem : canon cb ∈ s.files.map Prod.fst := by
    refine (lookupKey_isSome_iff _ _).mp ?_
    rw [← findFile_eq_lookupKey, hf]
    rfl
  have htag_mem : tagAt cb u ∈ used := by
    rw [hused]
    exact mem_branchValues.mpr ⟨canon cb, hcanon_mem, extend_canon cb u, tagAt_canon cb u⟩
  have hm_not : m ∉ used := (lowestUnused_spec used).1
  have htag_nb : tagAt nb u = m := tagAt_append_last pre m u hpre_len
  have hext_nb : extend_branch_array nb u = pre := extend_append_last pre m u hpre_len
  have hcanon_tag : tagAt (canon nb) u = m := by rw [tagAt_canon, htag_nb]
  have hcanon_ext : extend_branch_array (canon nb) u = pre := by rw [extend_canon, hext_nb]
  have hnb_not_mem : canon nb ∉ s.files.map Prod.fst := by
    intro hmem
    exact hm_not (by
      rw [hused]
      exact mem_branchValues.mpr ⟨canon nb, hmem, hcanon_ext, hcanon_tag⟩)
  have hcc : canon nb ≠ canon cb := by
    intro hcceq
    apply hm_not
    have : tagAt (canon nb) u = tagAt (canon cb) u := by rw [hcceq]
    rw [hcanon_tag, tagAt_canon] at this
    rw [← this] at htag_mem
    exact htag_mem
  have hkeys : (writeFile s.files nb
        (msgs.take e ++ [{ role := Role.user, content := c, thinking := none }])).map Prod.fst
      = s.files.map Prod.fst ++ [canon nb] :=
    writeFile_keys_of_not_mem _ _ _ hnb_not_mem
  have hvals : branchValues ((writeFile s.files nb
        (msgs.take e ++ [{ role := Role.user, content := c, thinking := none }])).map Prod.fst)
        pre u = insert m used := by
    rw [hkeys, branchValues_append, if_pos hcanon_ext, hcanon_tag, hused,
      Finset.union_comm, Finset.insert_eq]
  have hcall : create_branch s cb u c
      = some ({ files := writeFile s.files nb
                  (msgs.take e ++ [{ role := Role.user, content := c, thinking := none }]),
                current_branch := nb },
              { branch := nb, content := c, position := e, version := m + 1,
                total_versions := used.card + 1 }) := by
    simp only [create_branch, hf, he]
  refine ⟨_, _, hcall, rfl, rfl, rfl, ?_, hkeys, hvals, hcc, rfl, rfl⟩
  rw [findFile_eq_lookupKey]
  exact lookupKey_writeFile_same _ _ _

theorem iterCreateBranch_spec (u : Nat) (c : String) :
    ∀ (N : Nat) (s : FileStore) (pre : List Nat),
      extend_branch_array s.current_branch u = pre → EditReady s u →
      ∃ sN, iterCreateBranch u c N s = some sN ∧
        extend_branch_array sN.current_branch u = pre ∧
        EditReady sN u ∧
        (branchValues (sN.files.map Prod.fst) pre u).card
          = (branchValues (s.files.map Prod.fst) pre u).card + N
  | 0, s, pre, hpre, hready => ⟨s, rfl, hpre, hready, rfl⟩
  | N + 1, s, pre, hpre, hready => by
    obtain ⟨msgs, e, hf, he⟩ := hready
    obtain ⟨s', r, hcall, hbr, hpos, hcur, hfind, hkeys, hvals, hne, hver, htot⟩ :=
      create_branch_step s s.current_branch u c msgs e hf he
    have hpre_len : (extend_branch_array s.current_branch u).length = u :=
      length_extend _ _
    have hcur_ext : extend_branch_array s'.current_branch u = pre := by
      rw [hcur, hbr, extend_append_last _ _ _ hpre_len, hpre]
    have hready' : EditReady s' u := by
      refine ⟨msgs.take e ++ [{ role := Role.user, content := c, thinking := none }],
        e, ?_, userPositions_new msgs u e c he⟩
      rw [hcur]
      exact hfind
    rw [hpre] at hvals
    have hstep : (branchValues (s'.files.map Prod.fst) pre u).card
        = (branchValues (s.files.map Prod.fst) pre u).card + 1 := by
      rw [hvals, Finset.card_insert_of_not_mem]
      have := (lowestUnused_spec (branchValues (s.files.map Prod.fst) pre u)).1
      rw [← hpre]
      rw [← hpre] at this
      exact this
    obtain ⟨sN, hiter, hextN, hreadyN, hcardN⟩ :=
      iterCreateBranch_spec u c N s' pre hcur_ext hready'
    refine ⟨sN, ?_, hextN, hreadyN, ?_⟩
    · rw [iterCreateBranch, hcall]
      exact hiter
    · rw [hcardN, hstep]
      omega

/-- C2: sibling-tag uniqueness and lowest-unused allocation.  Starting from a
state whose sibling tag set at the current prefix and position `u` has exactly
one element, `N` chained create_branch calls all succeed and leave exactly
`N + 1` distinct sibling tags; each single call gives the new branch the
lowest tag not used by any branch sharing the prefix and points the
conversation's current branch at the new branch; and with tags `{0, 1, 3}`
present the next tag allocated is `2`. -/
theorem create_branch_sibling_uniqueness :
    (∀ (s : FileStore) (u : Nat) (c : String) (N : Nat),
      EditReady s u →
      (branchValues (s.files.map Prod.fst) (extend_branch_array s.current_branch u) u).card
        = 1 →
      ∃ sN, iterCreateBranch u c N s = some sN ∧
        (branchValues (sN.files.map Prod.fst) (extend_branch_array s.current_branch u) u).card
          = N + 1)
    ∧ (∀ (s : FileStore) (cb : List Nat) (u : Nat) (c : String) (s' : FileStore)
        (r : CreateBranchResult),
        create_branch s cb u c = some (s', r) →
        tagAt r.branch u
            = lowestUnused
                (branchValues (s.files.map Prod.fst) (extend_branch_array cb u) u) ∧
        tagAt r.branch u ∉ branchValues (s.files.map Prod.fst) (extend_branch_array cb u) u ∧
        (∀ k, k < tagAt r.branch u →
          k ∈ branchValues (s.files.map Prod.fst) (extend_branch_array cb u) u) ∧
        s'.current_branch = r.branch)
    ∧ lowestUnused ({0, 1, 3} : Finset Nat) = 2 := by
  refine ⟨?_, ?_, by decide⟩
  · intro s u c N hready hcard
    obtain ⟨sN, hiter, _, _, hcardN⟩ :=
      iterCreateBranch_spec u c N s (extend_branch_array s.current_branch u) rfl hready
    refine ⟨sN, hiter, ?_⟩
    rw [hcardN, hcard]
    omega
  · intro s cb u c s' r h
    rcases ho : findFile s cb with _ | msgs
    · simp only [create_branch, ho] at h
      exact Option.noConfusion h
    · rcases he : (userPositions msgs).get? u with _ | e
      · simp only [create_branch, ho, he] at h
        exact Option.noConfusion h
      · obtain ⟨S2, R2, hcall, hbr, hpos, hcur, hfind, hkeys, hvals, hne, hver, htot⟩ :=
          create_branch_step s cb u c msgs e ho he
        rw [h] at hcall
        injection hcall with hpair
        injection hpair with hs hr
        subst hs
        subst hr
        have htag : tagAt r.branch u
            = lowestUnused (branchValues (s.files.map Prod.fst) (extend_branch_array cb u) u) := by
          rw [hbr, tagAt_append_last _ _ _ (length_extend cb u)]
        refine ⟨htag, ?_, ?_, hcur⟩
        · rw [htag]
          exact (lowestUnused_spec _).1
        · intro k hk
          rw [htag] at hk
          exact (lowestUnused_spec _).2 k hk

/-- C2 witness: the demo conversation has one sibling tag at position 0; two
chained edits leave three distinct sibling tags. -/
theorem create_branch_sibling_uniqueness_witness :
    ∃ sN, iterCreateBranch 0 "x" 2 demoStore = some sN ∧
      (branchValues (sN.files.map Prod.fst)
        (extend_branch_array demoStore.current_branch 0) 0).card = 2 + 1 :=
  create_branch_sibling_uniqueness.1 demoStore 0 "x" 2
    ⟨[{ role := Role.user, content := "hi" }, { role := Role.assistant, content := "hello" }],
      0, by decide, by decide⟩
    (by decide)

/-- C3: retry truncates in place while edit forks.  Retrying the assistant
message at a valid position `p` of a branch of length `L` (`p < L`) leaves the
same branch address holding exactly `p + 1` messages whose last entry is the
new assistant message at position `p`, without touching the current-branch
pointer; editing the `u`-th user message (at list position `e`) writes a
branch with a different address holding exactly `e + 1` messages: the
unedited prefix plus the edited user message and nothing after it. -/
theorem retry_truncates_create_branch_forks :
    (∀ (s : FileStore) (b : List Nat) (p : Nat) (c : String) (th : Option String)
      (msgs : List Msg),
      findFile s b = some msgs → p < msgs.length →
      ∃ s' r, retry_assistant_message s b p c th = some (s', r) ∧
        findFile s' b
          = some (msgs.take p ++ [{ role := Role.assistant, content := c, thinking := th }]) ∧
        ((findFile s' b).getD []).length = p + 1 ∧
        ((findFile s' b).getD []).getLast?
          = some { role := Role.assistant, content := c, thinking := th } ∧
        r.position = p ∧ s'.current_branch = s.current_branch)
    ∧ (∀ (s : FileStore) (cb : List Nat) (u : Nat) (c : String) (msgs : List Msg) (e : Nat),
      findFile s cb = some msgs → (userPositions msgs).get? u = some e →
      ∃ s' r, create_branch s cb u c = some (s', r) ∧
        canon r.branch ≠ canon cb ∧
        r.position = e ∧
        findFile s' r.branch
          = some (msgs.take e ++ [{ role := Role.user, content := c, thinking := none }]) ∧
        ((findFile s' r.branch).getD []).length = e + 1) := by
  constructor
  · intro s b p c th msgs hf hlt
    have hcall : retry_assistant_message s b p c th
        = some
          ({ s with files := writeFile s.files b (msgs.take p ++ [{ role := Role.assistant, content := c, thinking := th }]) },
            { content := c, thinking := th, position := p, version := 1 }) := by
      simp only [retry_assistant_message, hf, if_neg (by omega : ¬ p ≥ msgs.length)]
    have hfind : findFile
          { s with files := writeFile s.files b (msgs.take p ++ [{ role := Role.assistant, content := c, thinking := th }]) } b
        = some (msgs.take p ++ [{ role := Role.assistant, content := c, thinking := th }]) := by
      rw [findFile_eq_lookupKey]
      exact lookupKey_writeFile_same _ _ _
    refine ⟨_, _, hcall, hfind, ?_, ?_, rfl, rfl⟩
    · rw [hfind]
      simp
      omega
    · rw [hfind]
      simp [List.getLast?_concat]
  · intro s cb u c msgs e hf he
    obtain ⟨s', r, hcall, hbr, hpos, hcur, hfind, hkeys, hvals, hne, hver, htot⟩ :=
      create_branch_step s cb u c msgs e hf he
    have hlt := userPositions_get?_lt msgs u e he
    refine ⟨s', r, hcall, hne, hpos, hfind, ?_⟩
    rw [hfind]
    simp
    omega

/-- C3 witness: on the demo conversation, retry at position 1 and a fork of
user message 0 behave as stated. -/
theorem retry_truncates_create_branch_forks_witness :
    (∃ s' r, retry_assistant_message demoStore [0] 1 "hello2" none = some (s', r) ∧
      findFile s' [0]
        = some ([{ role := Role.user, content := "hi" },
                 { role := Role.assistant, content := "hello" }].take 1
            ++ [{ role := Role.assistant, content := "hello2", thinking := none }]) ∧
      ((findFile s' [0]).getD []).length = 1 + 1 ∧
      ((findFile s' [0]).getD []).getLast?
        = some { role := Role.assistant, content := "hello2", thinking := none } ∧
      r.position = 1 ∧ s'.current_branch = demoStore.current_branch)
    ∧ (∃ s' r, create_branch demoStore [0] 0 "hi again" = some (s', r) ∧
      canon r.branch ≠ canon [0] ∧
      r.position = 0 ∧
      findFile s' r.branch
        = some ([{ role := Role.user, content := "hi" },
                 { role := Role.assistant, content := "hello" }].take 0
            ++ [{ role := Role.user, content := "hi again", thinking := none }]) ∧
      ((findFile s' r.branch).getD []).length = 0 + 1) :=
  ⟨retry_truncates_create_branch_forks.1 demoStore [0] 1 "hello2" none
      [{ role := Role.user, content := "hi" }, { role := Role.assistant, content := "hello" }]
      (by decide) (by decide),
   retry_truncates_create_branch_forks.2 demoStore [0] 0 "hi again"
      [{ role := Role.user, content := "hi" }, { role := Role.assistant, content := "hello" }]
      0 (by decide) (by decide)⟩

/-- C5: for a position whose sibling tag set is non-empty, get_version_info
reports `current_version` equal to the 1-indexed rank of the branch's tag in
the sorted distinct sibling tag set (defaulting to 1 when the tag is stale)
and `total_versions` equal to the size of that set. -/
theorem version_info_rank (s : FileStore) (b : List Nat) (u : Nat) :
    (branchValues (s.files.map Prod.fst) (extend_branch_array b u) u).Nonempty →
    (get_version_info s b u).current_version
        = specRank (branchValues (s.files.map Prod.fst) (extend_branch_array b u) u)
            (tagAt b u)
    ∧ (get_version_info s b u).total_versions
        = (branchValues (s.files.map Prod.fst) (extend_branch_array b u) u).card
    ∧ (tagAt b u ∉ branchValues (s.files.map Prod.fst) (extend_branch_array b u) u →
        (get_version_info s b u).current_version = 1) := by
  intro hne
  have hne' : ¬ branchValues (s.files.map Prod.fst) (extend_branch_array b u) u = ∅ :=
    Finset.nonempty_iff_ne_empty.mp hne
  simp only [get_version_info]
  rw [if_neg hne']
  refine ⟨?_, length_sortedVals _, ?_⟩
  · by_cases htag : tagAt b u ∈ branchValues (s.files.map Prod.fst) (extend_branch_array b u) u
    · rw [specRank, if_pos htag, if_pos (mem_sortedVals.mpr htag)]
    · rw [specRank, if_neg htag, if_neg (fun hm => htag (mem_sortedVals.mp hm))]
  · intro htag
    rw [if_neg (fun hm => htag (mem_sortedVals.mp hm))]

/-- C5 witness: the demo conversation has sibling tag set `{0}` at position 0,
reported as version 1 of 1. -/
theorem version_info_rank_witness :
    (branchValues (demoStore.files.map Prod.fst) (extend_branch_array [0] 0) 0).Nonempty
    ∧ ((get_version_info demoStore [0] 0).current_version
        = specRank (branchValues (demoStore.files.map Prod.fst) (extend_branch_array [0] 0) 0)
            (tagAt [0] 0)
      ∧ (get_version_info demoStore [0] 0).total_versions
        = (branchValues (demoStore.files.map Prod.fst) (extend_branch_array [0] 0) 0).card
      ∧ (tagAt [0] 0 ∉ branchValues (demoStore.files.map Prod.fst) (extend_branch_array [0] 0) 0 →
          (get_version_info demoStore [0] 0).current_version = 1)) :=
  ⟨by decide, version_info_rank demoStore [0] 0 (by decide)⟩

theorem foldl_min_mem : ∀ (fs : List (List Nat)) (f : List Nat),
    fs.foldl (fun best g => if g < best then g else best) f ∈ f :: fs
  | [], f => List.mem_singleton_self f
  | g :: gs, f => by
    simp only [List.foldl_cons]
    by_cases hlt : g < f
    · rw [if_pos hlt]
      rcases List.mem_cons.mp (foldl_min_mem gs g) with he | hm
      · exact List.mem_cons.mpr (Or.inr (List.mem_cons.mpr (Or.inl he)))
      · exact List.mem_cons.mpr (Or.inr (List.mem_cons.mpr (Or.inr hm)))
    · rw [if_neg hlt]
      rcases List.mem_cons.mp (foldl_min_mem gs f) with he | hm
      · exact List.mem_cons.mpr (Or.inl he)
      · exact List.mem_cons.mpr (Or.inr (List.mem_cons.mpr (Or.inr hm)))

theorem bestMatch_mem {l : List (List Nat)} {x : List Nat} (h : bestMatch l = some x) :
    x ∈ l := by
  cases l with
  | nil => exact Option.noConfusion h
  | cons f fs =>
    rw [bestMatch] at h
    injection h with he
    exact he ▸ foldl_min_mem fs f

/-- The value of `switch_branch` when the sibling set is non-empty: a branch
is returned and its tag at the switch position is the sorted sibling list
entry at the index computed by `switchNewIdx`. -/
theorem switch_branch_result (s : FileStore) (cb : List Nat) (u : Nat) (d : Int)
    (hne : branchValues (s.files.map Prod.fst) (extend_branch_array cb u) u ≠ ∅) :
    ∃ nb, (switch_branch s cb u d).1 = some nb ∧
      tagAt nb u
        = (sortedVals (branchValues (s.files.map Prod.fst) (extend_branch_array cb u) u)).getD
            (switchNewIdx
              (sortedVals (branchValues (s.files.map Prod.fst) (extend_branch_array cb u) u)).length
              (if tagAt cb u
                    ∈ sortedVals (branchValues (s.files.map Prod.fst) (extend_branch_array cb u) u)
                then (sortedVals (branchValues (s.files.map Prod.fst) (extend_branch_array cb u) u)).indexOf
                    (tagAt cb u)
                else 0)
              d) 0 := by
  simp only [switch_branch]
  rw [if_neg hne]
  split
  · rename_i best heq
    refine ⟨best, rfl, ?_⟩
    have hmemc := bestMatch_mem heq
    have h2 := (List.mem_filter.mp hmemc).2
    rw [decide_eq_true_eq] at h2
    rw [List.take_of_length_le (le_of_eq (length_extend best (u + 1)))] at h2
    rw [tagAt, h2, List.getD_append_right _ _ _ _ (le_of_eq (length_extend cb u))]
    simp [length_extend]
  · exact ⟨_, rfl, tagAt_append_last _ _ _ (length_extend cb u)⟩

theorem switchNewIdx_plus (len i : Nat) (h : i < len) :
    switchNewIdx len i 1 = (i + 1) % len := by
  by_cases h2 : i + 1 = len
  · rw [switchNewIdx, if_neg (by omega), if_pos (by omega), h2, Nat.mod_self]
  · rw [switchNewIdx, if_neg (by omega), if_neg (by omega),
      show ((i : Int) + 1).toNat = i + 1 from by omega,
      Nat.mod_eq_of_lt (by omega)]

theorem switchNewIdx_minus (len i : Nat) (h : i < len) :
    switchNewIdx len i (-1) = (i + len - 1) % len := by
  by_cases h0 : i = 0
  · subst h0
    rw [switchNewIdx, if_pos (by omega), Nat.mod_eq_of_lt (by omega)]
    omega
  · rw [switchNewIdx, if_neg (by omega), if_neg (by omega),
      show ((i : Int) + -1).toNat = i - 1 from by omega,
      show i + len - 1 = (i - 1) + len from by omega,
      Nat.add_mod_right, Nat.mod_eq_of_lt (by omega)]

/-- C7: branch navigation is cyclic among the sorted sibling tags.  If the
current tag sits at index `i` of the sorted distinct sibling list `sv`, then
direction `+1` yields a branch whose tag is `sv[(i+1) % |sv|]` (so from the
highest tag it wraps to the lowest) and direction `-1` yields the tag
`sv[(i+|sv|-1) % |sv|]` (so from the lowest tag it wraps to the highest);
for intermediate indicesic these are exactly the adjacent sorted tags. -/
theorem switch_branch_wraps_cyclically (s : FileStore) (cb : List Nat) (u i : Nat) :
    (sortedVals (branchValues (s.files.map Prod.fst) (extend_branch_array cb u) u)).get? i
        = some (tagAt cb u) →
    (∃ nb, (switch_branch s cb u 1).1 = some nb ∧
      tagAt nb u
        = (sortedVals (branchValues (s.files.map Prod.fst) (extend_branch_array cb u) u)).getD
            ((i + 1)
              % (sortedVals (branchValues (s.files.map Prod.fst) (extend_branch_array cb u) u)).length)
            0)
    ∧ (∃ nb, (switch_branch s cb u (-1)).1 = some nb ∧
      tagAt nb u
        = (sortedVals (branchValues (s.files.map Prod.fst) (extend_branch_array cb u) u)).getD
            ((i + (sortedVals (branchValues (s.files.map Prod.fst) (extend_branch_array cb u) u)).length - 1)
              % (sortedVals (branchValues (s.files.map Prod.fst) (extend_branch_array cb u) u)).length)
            0) := by
  intro hget
  have hmem_sv : tagAt cb u
      ∈ sortedVals (branchValues (s.files.map Prod.fst) (extend_branch_array cb u) u) :=
    List.get?_mem hget
  have hne : branchValues (s.files.map Prod.fst) (extend_branch_array cb u) u ≠ ∅ :=
    Finset.nonempty_iff_ne_empty.mp ⟨tagAt cb u, mem_sortedVals.mp hmem_sv⟩
  obtain ⟨hlt, hel⟩ := List.get?_eq_some.mp hget
  have hio : (sortedVals (branchValues (s.files.map Prod.fst) (extend_branch_array cb u) u)).indexOf
      (tagAt cb u) = i := by
    rw [show tagAt cb u
        = (sortedVals (branchValues (s.files.map Prod.fst) (extend_branch_array cb u) u)).get
            ⟨i, hlt⟩ from hel.symm]
    exact List.indexOf_getElem (nodup_sortedVals _) i hlt
  constructor
  · obtain ⟨nb, hnb, htag⟩ := switch_branch_result s cb u 1 hne
    refine ⟨nb, hnb, ?_⟩
    rw [htag, if_pos hmem_sv, hio, switchNewIdx_plus _ _ hlt]
  · obtain ⟨nb, hnb, htag⟩ := switch_branch_result s cb u (-1) hne
    refine ⟨nb, hnb, ?_⟩
    rw [htag, if_pos hmem_sv, hio, switchNewIdx_minus _ _ hlt]

/-- C7 witness: with sibling tags `[0, 1, 2]` and current tag `2` (sorted
index 2), direction `+1` wraps to the tag at index `(2+1) % 3 = 0` and
direction `-1` moves to the tag at index `(2+3-1) % 3 = 1`. -/
theorem switch_branch_wraps_cyclically_witness :
    (sortedVals (branchValues (demoStore3.files.map Prod.fst)
        (extend_branch_array [2] 0) 0)).get? 2 = some (tagAt [2] 0)
    ∧ ((∃ nb, (switch_branch demoStore3 [2] 0 1).1 = some nb ∧
        tagAt nb 0
          = (sortedVals (branchValues (demoStore3.files.map Prod.fst)
              (extend_branch_array [2] 0) 0)).getD
              ((2 + 1)
                % (sortedVals (branchValues (demoStore3.files.map Prod.fst)
                    (extend_branch_array [2] 0) 0)).length) 0)
      ∧ (∃ nb, (switch_branch demoStore3 [2] 0 (-1)).1 = some nb ∧
        tagAt nb 0
          = (sortedVals (branchValues (demoStore3.files.map Prod.fst)
              (extend_branch_array [2] 0) 0)).getD
              ((2 + (sortedVals (branchValues (demoStore3.files.map Prod.fst)
                    (extend_branch_array [2] 0) 0)).length - 1)
                % (sortedVals (branchValues (demoStore3.files.map Prod.fst)
                    (extend_branch_array [2] 0) 0)).length) 0)) :=
  ⟨by decide, switch_branch_wraps_cyclically demoStore3 [2] 0 2 (by decide)⟩

/-- C4: resolution is idempotent and deterministic in both backends.  Reading
a conversation performs no write (the store state after the call is the state
before it), and a second read issued after the first — with no intervening
write — returns exactly the same message sequence with the same version
metadata.  For the file backend this is `get_conversation`; for the
single-table backend it is the sequential parent-pointer resolution walk of
`sq_get_conversation`. -/
theorem get_conversation_idempotent :
    (∀ (s : FileStore) (b : Option (List Nat)),
      (get_conversation s b).2 = s ∧
      (get_conversation ((get_conversation s b).2) b).1 = (get_conversation s b).1)
    ∧ (∀ (t : TableStore) (cid : Nat),
      (sq_get_conversation t cid).2 = t ∧
      (sq_get_conversation ((sq_get_conversation t cid).2) cid).1
        = (sq_get_conversation t cid).1) := by
  constructor
  · intro s b
    exact ⟨rfl, rfl⟩
  · intro t cid
    have hstate : (sq_get_conversation t cid).2 = t := by
      rcases h : t.conversations.find? (fun c => decide (c.id = cid)) with _ | conv
      · simp [sq_get_conversation, h]
      · by_cases he : (convRows t cid).isEmpty
        · simp [sq_get_conversation, h, he]
        · simp [sq_get_conversation, h, he]
    exact ⟨hstate, by rw [hstate]⟩

/-- C10 (implicit): the single-table `update_message_content` locates its
target by `messageId` alone.  The result and the state change are literally
independent of the supplied conversation id and branch; the call returns true
exactly when some message row (in any conversation) has that id, and then
overwrites that row's content and thinking columns; the conversations table is
untouched. -/
theorem update_message_content_by_id_only :
    ∀ (t : TableStore) (cid cid2 mid : Nat) (c : String) (th : Option String)
      (br br2 : Option (List Nat)),
      sq_update_message_content t cid mid c th br
          = sq_update_message_content t cid2 mid c th br2
      ∧ ((sq_update_message_content t cid mid c th br).1 = true
          ↔ ∃ r ∈ t.messages, r.id = mid)
      ∧ (sq_update_message_content t cid mid c th br).2.messages
          = t.messages.map (fun r =>
              if r.id = mid then { r with content := c, thinking := th } else r)
      ∧ (sq_update_message_content t cid mid c th br).2.conversations
          = t.conversations := by
  intro t cid cid2 mid c th br br2
  refine ⟨rfl, ?_, rfl, rfl⟩
  simp only [sq_update_message_content, decide_eq_true_eq, gt_iff_lt]
  rw [List.length_pos, Ne, List.filter_eq_nil_iff]
  simp

/-- C10 witness: on the demo table, an update with a wrong conversation id
still succeeds and equals the update with the right conversation id. -/
theorem update_message_content_by_id_only_witness :
    sq_update_message_content demoTable 99 11 "new" none none
        = sq_update_message_content demoTable 1 11 "new" none (some [0])
    ∧ ((sq_update_message_content demoTable 99 11 "new" none none).1 = true
        ↔ ∃ r ∈ demoTable.messages, r.id = 11)
    ∧ (sq_update_message_content demoTable 99 11 "new" none none).2.messages
        = demoTable.messages.map (fun r =>
            if r.id = 11 then { r with content := "new", thinking := none } else r)
    ∧ (sq_update_message_content demoTable 99 11 "new" none none).2.conversations
        = demoTable.conversations :=
  update_message_content_by_id_only demoTable 99 1 11 "new" none none (some [0])

/-- C6: the two backends disagree on `delete_messages_from` for a position at
or past the end.  `demoStore` and `demoTable` hold the same two-message
conversation (both resolve to the user/assistant pair), yet at position 5 the
file backend returns false ("nothing to delete") while the SQLite backend
returns true even though it deletes no message row, because its
`db.total_changes > 0` also counts the unconditional `updated_at` UPDATE of
the conversations row executed on the same connection. -/
theorem delete_messages_from_backend_divergence :
    ((get_conversation demoStore none).1.1).length = 2
    ∧ ((sq_get_conversation demoTable 1).1.getD []).length = 2
    ∧ (delete_messages_from demoStore 5 none).1 = false
    ∧ (sq_delete_messages_from demoTable 1 5 none).1 = true
    ∧ (sq_delete_messages_from demoTable 1 5 none).2.messages = demoTable.messages := by
  decide

/-- C8: stop capability.  `stop_stream` returns true exactly when a stream is
registered for the conversation and it is an agent stream carrying a stop
event; in that case the registered stream's event becomes set; in every
false case the whole registry state is left unchanged. -/
theorem stop_stream_capability :
    ∀ (s : StreamingServiceM) (cid : Nat),
      ((stop_stream s cid).1 = true ↔
        ∃ st, lookupKey s.streams cid = some st ∧
          st.stream_type = StreamType.AGENT ∧ st.stop_event ≠ none)
      ∧ (∀ st, lookupKey s.streams cid = some st →
          st.stream_type = StreamType.AGENT → st.stop_event ≠ none →
          lookupKey (stop_stream s cid).2.streams cid
            = some { st with stop_event := some true })
      ∧ ((stop_stream s cid).1 = false → (stop_stream s cid).2 = s) := by
  intro s cid
  rcases h : lookupKey s.streams cid with _ | st
  · have hcall : stop_stream s cid = (false, s) := by
      simp only [stop_stream, h]
    rw [hcall]
    refine ⟨?_, ?_, fun _ => rfl⟩
    · constructor
      · intro hf
        exact Bool.noConfusion hf
      · rintro ⟨st2, hst2, _⟩
        exact Option.noConfusion hst2
    · intro st2 hst2
      exact Option.noConfusion hst2
  · by_cases hcond : st.stream_type ≠ StreamType.AGENT ∨ st.stop_event = none
    · have hcall : stop_stream s cid = (false, s) := by
        simp only [stop_stream, h, if_pos hcond]
      rw [hcall]
      refine ⟨?_, ?_, fun _ => rfl⟩
      · constructor
        · intro hf
          exact Bool.noConfusion hf
        · rintro ⟨st2, hst2, hag, hev⟩
          injection hst2 with he
          subst he
          rcases hcond with hc | hc
          · exact absurd hag hc
          · exact absurd hc hev
      · intro st2 hst2 hag hev
        injection hst2 with he
        subst he
        rcases hcond with hc | hc
        · exact absurd hag hc
        · exact absurd hc hev
    · have hcond2 : st.stream_type = StreamType.AGENT ∧ st.stop_event ≠ none := by
        push_neg at hcond
        exact hcond
      have hcall : stop_stream s cid
          = (true,
             { s with streams := setKey s.streams cid { st with stop_event := some true } }) := by
        simp only [stop_stream, h, if_neg hcond]
      rw [hcall]
      refine ⟨?_, ?_, ?_⟩
      · simp only [true_iff]
        exact ⟨st, rfl, hcond2.1, hcond2.2⟩
      · intro st2 hst2 hag hev
        injection hst2 with he
        subst he
        exact lookupKey_setKey_same _ _ _
      · intro hfalse
        exact Bool.noConfusion hfalse

/-- C8 witness: in a registry holding one agent stream with an unset stop
event, stop_stream on that conversation succeeds and sets the event. -/
theorem stop_stream_capability_witness :
    (((stop_stream (start_stream demoService 5 StreamType.AGENT (some "t") 0 1).2 5).1 = true ↔
      ∃ st, lookupKey (start_stream demoService 5 StreamType.AGENT (some "t") 0 1).2.streams 5
          = some st ∧ st.stream_type = StreamType.AGENT ∧ st.stop_event ≠ none)
    ∧ (∀ st, lookupKey (start_stream demoService 5 StreamType.AGENT (some "t") 0 1).2.streams 5
          = some st →
        st.stream_type = StreamType.AGENT → st.stop_event ≠ none →
        lookupKey (stop_stream (start_stream demoService 5 StreamType.AGENT (some "t") 0 1).2 5).2.streams 5
          = some { st with stop_event := some true })
    ∧ ((stop_stream (start_stream demoService 5 StreamType.AGENT (some "t") 0 1).2 5).1 = false →
        (stop_stream (start_stream demoService 5 StreamType.AGENT (some "t") 0 1).2 5).2
          = (start_stream demoService 5 StreamType.AGENT (some "t") 0 1).2)) :=
  stop_stream_capability (start_stream demoService 5 StreamType.AGENT (some "t") 0 1).2 5

/-- C9 counterexample: `get_steer_context` does not remove the stored entry.
After `Set`, a first `Get` returns the context and a second `Get` (with no
intervening `Set`) returns the same context again — not `none` as the claim
states. -/
theorem steer_get_does_not_clear :
    ((get_steer_context (set_steer_context demoService 1 demoCtx).2 1).1 = some demoCtx)
    ∧ ((get_steer_context
          (get_steer_context (set_steer_context demoService 1 demoCtx).2 1).2 1).1
        = some demoCtx)
    ∧ ((get_steer_context
          (get_steer_context (set_steer_context demoService 1 demoCtx).2 1).2 1).1
        ≠ none) := by
  decide

/-- C9 amended: after `Set`, `Get` returns the stored context and leaves the
registry unchanged (so it survives any number of reads); the entry is removed
only by the explicit `Clear` (which the consuming code invokes after using
the context), after which `Get` returns `none`; and the entry is independent
of the stream registry: `end_stream` does not affect it. -/
theorem steer_context_lifecycle :
    ∀ (s : StreamingServiceM) (cid : Nat) (ctx : SteerContextM),
      (get_steer_context (set_steer_context s cid ctx).2 cid).1 = some ctx
      ∧ (get_steer_context (set_steer_context s cid ctx).2 cid).2
          = (set_steer_context s cid ctx).2
      ∧ (clear_steer_context (set_steer_context s cid ctx).2 cid).1 = true
      ∧ (get_steer_context (clear_steer_context (set_steer_context s cid ctx).2 cid).2 cid).1
          = none
      ∧ (get_steer_context (end_stream s cid).2 cid).1 = (get_steer_context s cid).1 := by
  intro s cid ctx
  have hset : (get_steer_context (set_steer_context s cid ctx).2 cid).1 = some ctx := by
    simp only [get_steer_context, set_steer_context]
    exact lookupKey_setKey_same _ _ _
  refine ⟨hset, rfl, ?_, ?_, ?_⟩
  · simp only [clear_steer_context]
    rw [if_pos]
    rw [show (lookupKey (set_steer_context s cid ctx).2.steer_contexts cid)
        = some ctx from hset]
    rfl
  · simp only [clear_steer_context]
    rw [if_pos]
    · simp only [get_steer_context]
      exact lookupKey_delKey_same _ _
    · rw [show (lookupKey (set_steer_context s cid ctx).2.steer_contexts cid)
          = some ctx from hset]
      rfl
  · simp only [end_stream, get_steer_context]
    split <;> rfl

/-- C9 amended-claim witness at a concrete state. -/
theorem steer_context_lifecycle_witness :
    (get_steer_context (set_steer_context demoService 1 demoCtx).2 1).1 = some demoCtx
    ∧ (get_steer_context (set_steer_context demoService 1 demoCtx).2 1).2
        = (set_steer_context demoService 1 demoCtx).2
    ∧ (clear_steer_context (set_steer_context demoService 1 demoCtx).2 1).1 = true
    ∧ (get_steer_context (clear_steer_context (set_steer_context demoService 1 demoCtx).2 1).2 1).1
        = none
    ∧ (get_steer_context (end_stream demoService 1).2 1).1
        = (get_steer_context demoService 1).1 :=
  steer_context_lifecycle demoService 1 demoCtx

end ChatUI
